import Mathlib

/-!
A shallow embedding of the `jasper-chat-bot` repository's algorithmic core:
the markdown-to-HTML converter `parseMarkdownToHTML` from
`src/app/components/ChatBox.vue` (lines 22-71) and the `/api/chat` POST
handler from `src/server/api/chat.post.js`.

The converter is a sequence of thirteen global regex substitutions (the
table rule is applied twice).  Each substitution is modelled by an explicit
left-to-right scanner over `List Char` that reproduces the semantics of
JavaScript `String.replace` with a global regex: find the leftmost match,
emit the replacement, continue scanning the original text after the match,
and advance one character on failure.  Rules anchored at `^`/`$` with the
`m` flag are modelled by a scanner that tracks beginning-of-line.
-/

namespace JasperChat

/-- The whitespace class `\s` of JavaScript regexes:
`[\t\n\v\f\r \u00a0\u1680\u2000`-`\u200a\u2028\u2029\u202f\u205f\u3000\ufeff]`. -/
def isWs (c : Char) : Bool :=
  c = ' ' || c = '\t' || c = '\n' || c = '\x0b' || c = '\x0c' || c = '\r' ||
  c = '\u00A0' || c = '\u1680' || (0x2000 ≤ c.toNat && c.toNat ≤ 0x200A) ||
  c = '\u2028' || c = '\u2029' || c = '\u202F' || c = '\u205F' || c = '\u3000' ||
  c = '\uFEFF'

/-- The ECMAScript line terminators LF, CR, LS and PS: multiline `^` matches
after any of them, multiline `$` before any of them, and `.` matches
everything except them. -/
def isNl (c : Char) : Bool :=
  c = '\n' || c = '\r' || c = '\u2028' || c = '\u2029'

/-- Lazy (earliest) search for the closing delimiter `cls`: at each offset the
closing delimiter is tested first, otherwise the current character must be an
admissible body character (`ok`), exactly as in the non-greedy captures
`(.*?)` / `([\s\S]+?)` and the complemented classes of the source regexes.
Returns the captured body and the text after the closing delimiter. -/
def findClose (cls : List Char) (ok : Char → Bool) : List Char → Option (List Char × List Char)
  | [] => none
  | c :: cs =>
    if cls.isPrefixOf (c :: cs) then some ([], (c :: cs).drop cls.length)
    else if ok c then (findClose cls ok cs).map (fun p => (c :: p.1, p.2)) else none

/-- Global substitution: JavaScript `text.replace(re, rep)` with flag `g` for a
position-free pattern.  `m` returns the replacement for a match starting at the
head of its argument together with the rest of the text after the match.
On failure the scanner advances one character.  The fuel argument is
instantiated with the length of the text, which every run consumes at most. -/
def gsubA (m : List Char → Option (List Char × List Char)) : Nat → List Char → List Char
  | _, [] => []
  | 0, l => l
  | fuel + 1, c :: cs =>
    match m (c :: cs) with
    | some (rep, rest) => rep ++ gsubA m fuel rest
    | none => c :: gsubA m fuel cs

def charPass (m : List Char → Option (List Char × List Char)) (l : List Char) : List Char :=
  gsubA m l.length l

/-- Global substitution for a `^`-anchored pattern with the `m` flag: the
matcher is consulted only at beginning-of-line positions (index 0 or right
after a newline).  All the source's line rules end at `$` (end of text or just
before a newline), so scanning resumes with the beginning-of-line flag off. -/
def scanA (m : List Char → Option (List Char × List Char)) : Nat → Bool → List Char → List Char
  | _, _, [] => []
  | 0, _, l => l
  | fuel + 1, bol, c :: cs =>
    if bol then
      match m (c :: cs) with
      | some (rep, rest) => rep ++ scanA m fuel false rest
      | none => c :: scanA m fuel (isNl c) cs
    else c :: scanA m fuel (isNl c) cs

def linePass (m : List Char → Option (List Char × List Char)) (l : List Char) : List Char :=
  scanA m l.length true l

/-! ### The thirteen substitutions of `parseMarkdownToHTML` -/

/-- Rule 1, `text.replace(/\*\*(.*?)\*\*\/g, '<strong>$1</strong>')`. -/
def boldM (l : List Char) : Option (List Char × List Char) :=
  match l with
  | c₀ :: c₁ :: r =>
    if c₀ = '*' ∧ c₁ = '*' then
      match findClose ['*', '*'] (fun c => !isNl c) r with
      | some (b, rest) =>
        some (['<', 's', 't', 'r', 'o', 'n', 'g', '>'] ++ b ++
              ['<', '/', 's', 't', 'r', 'o', 'n', 'g', '>'], rest)
      | none => none
    else none
  | _ => none

/-- Rule 2, `text.replace(/\*(.*?)\*\/g, '<em>$1</em>')`. -/
def italicM (l : List Char) : Option (List Char × List Char) :=
  match l with
  | c₀ :: r =>
    if c₀ = '*' then
      match findClose ['*'] (fun c => !isNl c) r with
      | some (b, rest) =>
        some (['<', 'e', 'm', '>'] ++ b ++ ['<', '/', 'e', 'm', '>'], rest)
      | none => none
    else none
  | _ => none

/-- Rule 3, `text.replace(/~~(.*?)~~/g, '<del>$1</del>')`. -/
def delM (l : List Char) : Option (List Char × List Char) :=
  match l with
  | c₀ :: c₁ :: r =>
    if c₀ = '~' ∧ c₁ = '~' then
      match findClose ['~', '~'] (fun c => !isNl c) r with
      | some (b, rest) =>
        some (['<', 'd', 'e', 'l', '>'] ++ b ++ ['<', '/', 'd', 'e', 'l', '>'], rest)
      | none => none
    else none
  | _ => none

/-- Rule 4, `text.replace(/\[([^\]]+)\]\(([^)]+)\)/g, '<a href="$2">$1</a>')`.
The greedy complemented classes stop at the first excluded character, so the
captures are the maximal runs of non-`]` (resp. non-`)`) characters. -/
def linkM (l : List Char) : Option (List Char × List Char) :=
  match l with
  | c₀ :: r =>
    if c₀ = '[' then
      let txt := r.takeWhile (fun c => c ≠ ']')
      match r.dropWhile (fun c => c ≠ ']') with
      | d :: c₂ :: r₂ =>
        if d = ']' ∧ c₂ = '(' ∧ txt ≠ [] then
          let url := r₂.takeWhile (fun c => c ≠ ')')
          match r₂.dropWhile (fun c => c ≠ ')') with
          | e :: r₃ =>
            if e = ')' ∧ url ≠ [] then
              some (['<', 'a', ' ', 'h', 'r', 'e', 'f', '=', '"'] ++ url ++
                    ['"', '>'] ++ txt ++ ['<', '/', 'a', '>'], r₃)
            else none
          | [] => none
        else none
      | _ => none
    else none
  | _ => none

/-- Rule 5, the heading substitution
`text.replace(/^(#{1,6})\s*(.*)$/gm, (_, level, content) => ...)`:
one to six `#` (greedily), then a greedy run of `\s` (which may cross
newlines), then the remainder of the line. -/
def headingM (l : List Char) : Option (List Char × List Char) :=
  match l with
  | c₀ :: _ =>
    if c₀ = '#' then
      let k := min (l.takeWhile (fun c => c = '#')).length 6
      let r₂ := (l.drop k).dropWhile isWs
      let content := r₂.takeWhile (fun c => !isNl c)
      some (['<', 'h', Char.ofNat (48 + k), '>'] ++ content ++
            ['<', '/', 'h', Char.ofNat (48 + k), '>'],
            r₂.dropWhile (fun c => !isNl c))
    else none
  | [] => none

/-- Rule 6, inline code: ``text.replace(/`([^`]+)`/g, '<code>$1</code>')``.
The body is a nonempty run of non-backtick characters. -/
def codeM (l : List Char) : Option (List Char × List Char) :=
  match l with
  | c₀ :: c :: r =>
    if c₀ = '`' ∧ c ≠ '`' then
      match findClose ['`'] (fun c => c ≠ '`') r with
      | some (b, rest) =>
        some (['<', 'c', 'o', 'd', 'e', '>'] ++ c :: b ++
              ['<', '/', 'c', 'o', 'd', 'e', '>'], rest)
      | none => none
    else none
  | _ => none

/-- Rule 7, fenced code: ``text.replace(/```([\s\S]+?)```/g, ...)``: a lazy
nonempty body (any characters, newlines included) between triple backticks. -/
def fenceM (l : List Char) : Option (List Char × List Char) :=
  match l with
  | c₀ :: c₁ :: c₂ :: c :: r =>
    if c₀ = '`' ∧ c₁ = '`' ∧ c₂ = '`' then
      match findClose ['`', '`', '`'] (fun _ => true) r with
      | some (b, rest) =>
        some (['<', 'p', 'r', 'e', '>', '<', 'c', 'o', 'd', 'e', '>'] ++ c :: b ++
              ['<', '/', 'c', 'o', 'd', 'e', '>', '<', '/', 'p', 'r', 'e', '>'], rest)
      | none => none
    else none
  | _ => none

/-- Rule 8, `text.replace(/^>\s*(.*)$/gm, '<blockquote>$1</blockquote>')`. -/
def quoteM (l : List Char) : Option (List Char × List Char) :=
  match l with
  | c₀ :: r =>
    if c₀ = '>' then
      let r₁ := r.dropWhile isWs
      some (['<', 'b', 'l', 'o', 'c', 'k', 'q', 'u', 'o', 't', 'e', '>'] ++
            r₁.takeWhile (fun c => !isNl c) ++
            ['<', '/', 'b', 'l', 'o', 'c', 'k', 'q', 'u', 'o', 't', 'e', '>'],
            r₁.dropWhile (fun c => !isNl c))
    else none
  | [] => none

/-- Rule 9, `text.replace(/^\*\s(.*)$/gm, '<ul><li>$1</li></ul>')`:
a `*`, exactly one `\s` character, then the rest of the line. -/
def ulM (l : List Char) : Option (List Char × List Char) :=
  match l with
  | c₀ :: c :: r =>
    if c₀ = '*' ∧ isWs c then
      some (['<', 'u', 'l', '>', '<', 'l', 'i', '>'] ++
            r.takeWhile (fun c => !isNl c) ++
            ['<', '/', 'l', 'i', '>', '<', '/', 'u', 'l', '>'],
            r.dropWhile (fun c => !isNl c))
    else none
  | _ => none

/-- Rule 10, `text.replace(/^\d+\.\s(.*)$/gm, '<ol><li>$1</li></ol>')`. -/
def olM (l : List Char) : Option (List Char × List Char) :=
  match l with
  | c₀ :: _ =>
    if c₀.isDigit then
      match l.dropWhile Char.isDigit with
      | d :: c :: r =>
        if d = '.' ∧ isWs c then
          some (['<', 'o', 'l', '>', '<', 'l', 'i', '>'] ++
                r.takeWhile (fun c => !isNl c) ++
                ['<', '/', 'l', 'i', '>', '<', '/', 'o', 'l', '>'],
                r.dropWhile (fun c => !isNl c))
        else none
      | _ => none
    else none
  | [] => none

/-- Rule 11, images:
`text.replace(/!\[([^\]]*)\]\(([^)]+)\)/g, '<img src="$2" alt="$1"/>')`.
The alt capture may be empty (`*`), the url capture must be nonempty. -/
def imgM (l : List Char) : Option (List Char × List Char) :=
  match l with
  | c₀ :: c₁ :: r =>
    if c₀ = '!' ∧ c₁ = '[' then
      let alt := r.takeWhile (fun c => c ≠ ']')
      match r.dropWhile (fun c => c ≠ ']') with
      | d :: c₂ :: r₂ =>
        if d = ']' ∧ c₂ = '(' then
          let url := r₂.takeWhile (fun c => c ≠ ')')
          match r₂.dropWhile (fun c => c ≠ ')') with
          | e :: r₃ =>
            if e = ')' ∧ url ≠ [] then
              some (['<', 'i', 'm', 'g', ' ', 's', 'r', 'c', '=', '"'] ++ url ++
                    ['"', ' ', 'a', 'l', 't', '=', '"'] ++ alt ++ ['"', '/', '>'], r₃)
            else none
          | [] => none
        else none
      | _ => none
    else none
  | _ => none

/-- `content.split('|')` of the table replacement callbacks. -/
def splitBar : List Char → List (List Char)
  | [] => [[]]
  | x :: xs =>
    match splitBar xs with
    | [] => [[]]
    | h :: t => if x = '|' then [] :: h :: t else (x :: h) :: t

/-- `cell.trim()` of the table replacement callbacks. -/
def trimWs (l : List Char) : List Char :=
  ((l.dropWhile isWs).reverse.dropWhile isWs).reverse

/-- The current line of a text: everything up to the first line terminator. -/
def tableLine (l : List Char) : List Char := l.takeWhile (fun c => !isNl c)

/-- Rule 12 (both passes), `text.replace(/^\|(.+)\|$/gm, ...)`: a line that
starts and ends with `|` with a nonempty greedy middle.  `mk` builds the
replacement from the captured middle; the two passes differ only in `mk`. -/
def tableM (mk : List Char → List Char) (l : List Char) : Option (List Char × List Char) :=
  match l with
  | c₀ :: _ =>
    if c₀ = '|' then
      if (tableLine l).getLast? = some '|' ∧ 3 ≤ (tableLine l).length then
        some (mk ((tableLine l).drop 1).dropLast, l.dropWhile (fun c => !isNl c))
      else none
    else none
  | [] => none

/-- Replacement of the first table pass:
`<thead><tr>${cells th}</tr></thead><tbody>`. -/
def mkTh (content : List Char) : List Char :=
  ['<', 't', 'h', 'e', 'a', 'd', '>', '<', 't', 'r', '>'] ++
  ((splitBar content).map
    (fun cell => ['<', 't', 'h', '>'] ++ trimWs cell ++ ['<', '/', 't', 'h', '>'])).flatten ++
  ['<', '/', 't', 'r', '>', '<', '/', 't', 'h', 'e', 'a', 'd', '>', '<', 't', 'b', 'o', 'd', 'y', '>']

/-- Replacement of the second table pass:
`<tr>${cells td}</tr></tbody></table>`. -/
def mkTd (content : List Char) : List Char :=
  ['<', 't', 'r', '>'] ++
  ((splitBar content).map
    (fun cell => ['<', 't', 'd', '>'] ++ trimWs cell ++ ['<', '/', 't', 'd', '>'])).flatten ++
  ['<', '/', 't', 'r', '>', '<', '/', 't', 'b', 'o', 'd', 'y', '>', '<', '/', 't', 'a', 'b', 'l', 'e', '>']

/-- The thirteen substitutions of `parseMarkdownToHTML`, in source order. -/
def render (l : List Char) : List Char :=
  let t₁ := charPass boldM l
  let t₂ := charPass italicM t₁
  let t₃ := charPass delM t₂
  let t₄ := charPass linkM t₃
  let t₅ := linePass headingM t₄
  let t₆ := charPass codeM t₅
  let t₇ := charPass fenceM t₆
  let t₈ := linePass quoteM t₇
  let t₉ := linePass ulM t₈
  let t₁₀ := linePass olM t₉
  let t₁₁ := charPass imgM t₁₀
  let t₁₂ := linePass (tableM mkTh) t₁₁
  linePass (tableM mkTd) t₁₂

/-- `parseMarkdownToHTML` from `src/app/components/ChatBox.vue`, lines 22-71. -/
def parseMarkdownToHTML (s : String) : String := ⟨render s.data⟩

/-! ### The `/api/chat` POST handler, `src/server/api/chat.post.js` -/

/-- The request body read by the handler (`body.message`; the history field
plays no role in the status logic). -/
structure RequestBody where
  message : Option String
deriving DecidableEq

/-- Outcome of one handler invocation: the HTTP status set via
`setResponseStatus` (200 when untouched) and the returned JSON fields. -/
structure ApiResp where
  status : Nat
  error : Bool
  message : Option String
  reply : Option String
deriving DecidableEq

/-- JavaScript truthiness test `!x` for an optional string:
true for `undefined` and for the empty string. -/
def falsyStr : Option String → Bool
  | none => true
  | some s => s.isEmpty

/-- The event handler of `src/server/api/chat.post.js`: the api-key check
(lines 11-19) precedes `readBody` (line 22), so the body is modelled as an
argument that the missing-key branch never inspects; `gen` is the outcome of
the upstream `ai.models.generateContent` call. -/
def chatHandler (apiKey : Option String) (body : RequestBody)
    (gen : Except String String) : ApiResp :=
  if falsyStr apiKey then
    { status := 500, error := true
      message := some "API key not configured. Please set GEMINI_API_KEY in your .env file."
      reply := none }
  else if falsyStr body.message then
    { status := 400, error := true
      message := some "No message provided in the request."
      reply := none }
  else
    match gen with
    | .ok t => { status := 200, error := false, message := none, reply := some t }
    | .error e => { status := 500, error := true, message := some e, reply := none }

/-! ### Stepping and identity lemmas for the two scanners -/

theorem gsubA_nil (m : List Char → Option (List Char × List Char)) (fuel : Nat) :
    gsubA m fuel [] = [] := by cases fuel <;> rfl

theorem gsubA_zero (m : List Char → Option (List Char × List Char)) (l : List Char) :
    gsubA m 0 l = l := by cases l <;> rfl

theorem gsubA_cons_none {m : List Char → Option (List Char × List Char)} {c : Char}
    {cs : List Char} (h : m (c :: cs) = none) (fuel : Nat) :
    gsubA m fuel (c :: cs) = c :: gsubA m (fuel - 1) cs := by
  cases fuel with
  | zero => simp [gsubA_zero]
  | succ f => simp [gsubA, h]

theorem gsubA_cons_some {m : List Char → Option (List Char × List Char)} {c : Char}
    {cs rep rest : List Char} (h : m (c :: cs) = some (rep, rest)) (fuel : Nat) :
    gsubA m (fuel + 1) (c :: cs) = rep ++ gsubA m fuel rest := by
  simp [gsubA, h]

theorem gsubA_id_of_heads {m : List Char → Option (List Char × List Char)} {l : List Char}
    (h : ∀ c r, c ∈ l → m (c :: r) = none) (fuel : Nat) : gsubA m fuel l = l := by
  induction l generalizing fuel with
  | nil => exact gsubA_nil ..
  | cons c cs ih =>
    rw [gsubA_cons_none (h c cs (List.mem_cons_self c cs))]
    exact congrArg (c :: ·) (ih (fun c' r hc => h c' r (List.mem_cons_of_mem _ hc)) _)

theorem gsubA_skip {m : List Char → Option (List Char × List Char)} (xs : List Char)
    {r : List Char} (h : ∀ c t, c ∈ xs → m (c :: t) = none) (fuel : Nat) :
    gsubA m fuel (xs ++ r) = xs ++ gsubA m (fuel - xs.length) r := by
  induction xs generalizing fuel with
  | nil => simp
  | cons c cs ih =>
    rw [List.cons_append, gsubA_cons_none (h c _ (List.mem_cons_self ..)),
      ih (fun c' t hc => h c' t (List.mem_cons_of_mem _ hc))]
    have : fuel - 1 - cs.length = fuel - (c :: cs).length := by
      simp [List.length_cons]; omega
    rw [this, List.cons_append]

theorem gsubA_id_of_suffix {m : List Char → Option (List Char × List Char)} {l : List Char}
    (h : ∀ t, t <:+ l → m t = none) (fuel : Nat) : gsubA m fuel l = l := by
  induction l generalizing fuel with
  | nil => exact gsubA_nil ..
  | cons c cs ih =>
    rw [gsubA_cons_none (h _ (List.suffix_refl _))]
    exact congrArg (c :: ·) (ih (fun t ht => h t (ht.trans (List.suffix_cons c cs))) _)

theorem scanA_nil (m : List Char → Option (List Char × List Char)) (fuel : Nat) (bol : Bool) :
    scanA m fuel bol [] = [] := by cases fuel <;> rfl

theorem scanA_zero (m : List Char → Option (List Char × List Char)) (bol : Bool) (l : List Char) :
    scanA m 0 bol l = l := by cases l <;> rfl

theorem scanA_cons_false (m : List Char → Option (List Char × List Char)) (c : Char)
    (cs : List Char) (fuel : Nat) :
    scanA m fuel false (c :: cs) = c :: scanA m (fuel - 1) (isNl c) cs := by
  cases fuel with
  | zero => simp [scanA_zero]
  | succ f => simp [scanA]

theorem scanA_cons_true_none {m : List Char → Option (List Char × List Char)} {c : Char}
    {cs : List Char} (h : m (c :: cs) = none) (fuel : Nat) :
    scanA m fuel true (c :: cs) = c :: scanA m (fuel - 1) (isNl c) cs := by
  cases fuel with
  | zero => simp [scanA_zero]
  | succ f => simp [scanA, h]

theorem scanA_cons_true_some {m : List Char → Option (List Char × List Char)} {c : Char}
    {cs rep rest : List Char} (h : m (c :: cs) = some (rep, rest)) (fuel : Nat) :
    scanA m (fuel + 1) true (c :: cs) = rep ++ scanA m fuel false rest := by
  simp [scanA, h]

theorem scanA_false_id {m : List Char → Option (List Char × List Char)} {l : List Char}
    (h : ∀ x ∈ l, isNl x = false) (fuel : Nat) : scanA m fuel false l = l := by
  induction l generalizing fuel with
  | nil => exact scanA_nil ..
  | cons c cs ih =>
    rw [scanA_cons_false, h c (List.mem_cons_self ..)]
    exact congrArg (c :: ·) (ih (fun x hx => h x (List.mem_cons_of_mem _ hx)) _)

theorem scanA_skip_false {m : List Char → Option (List Char × List Char)} (xs : List Char)
    {r : List Char} (h : ∀ x ∈ xs, isNl x = false) (fuel : Nat) :
    scanA m fuel false (xs ++ r) = xs ++ scanA m (fuel - xs.length) false r := by
  induction xs generalizing fuel with
  | nil => simp
  | cons c cs ih =>
    rw [List.cons_append, scanA_cons_false,
      h c (List.mem_cons_self ..),
      ih (fun x hx => h x (List.mem_cons_of_mem _ hx))]
    have : fuel - 1 - cs.length = fuel - (c :: cs).length := by
      simp [List.length_cons]; omega
    rw [this, List.cons_append]

/-- The beginning-of-line suffixes of a text: the tail after each newline. -/
def lineSuffixes : List Char → List (List Char)
  | [] => []
  | c :: cs => if isNl c then cs :: lineSuffixes cs else lineSuffixes cs

theorem lineSuffixes_subset (c : Char) (cs : List Char) :
    lineSuffixes cs ⊆ lineSuffixes (c :: cs) := by
  intro t ht
  cases hc : isNl c <;> simp [lineSuffixes, hc, ht]

theorem scanA_id_of {m : List Char → Option (List Char × List Char)} {l : List Char}
    (hl : ∀ t ∈ lineSuffixes l, m t = none) :
    ∀ fuel bol, (bol = true → m l = none) → scanA m fuel bol l = l := by
  induction l with
  | nil => intro fuel bol _; exact scanA_nil ..
  | cons c cs ih =>
    intro fuel bol hb
    have hcs : ∀ t ∈ lineSuffixes cs, m t = none :=
      fun t ht => hl t (lineSuffixes_subset c cs ht)
    have hnext : isNl c = true → m cs = none := by
      intro hc
      exact hl cs (by simp [lineSuffixes, hc])
    cases bol with
    | false =>
      rw [scanA_cons_false]
      exact congrArg (c :: ·) (ih hcs _ _ hnext)
    | true =>
      rw [scanA_cons_true_none (hb rfl)]
      exact congrArg (c :: ·) (ih hcs _ _ hnext)

/-- `m` matches nowhere in `l` (position-free pattern). -/
def noFireC (m : List Char → Option (List Char × List Char)) (l : List Char) : Bool :=
  l.tails.all fun t => (m t).isNone

/-- `m` matches at no beginning-of-line position of `l` (line-anchored pattern). -/
def noFireL (m : List Char → Option (List Char × List Char)) (l : List Char) : Bool :=
  (m l).isNone && (lineSuffixes l).all fun t => (m t).isNone

theorem charPass_id {m : List Char → Option (List Char × List Char)} {l : List Char}
    (h : noFireC m l = true) : charPass m l = l := by
  refine gsubA_id_of_suffix (fun t ht => ?_) _
  have := List.all_eq_true.mp h t ((List.mem_tails t l).mpr ht)
  simpa [Option.isNone_iff_eq_none] using this

theorem linePass_id {m : List Char → Option (List Char × List Char)} {l : List Char}
    (h : noFireL m l = true) : linePass m l = l := by
  simp only [noFireL, Bool.and_eq_true, List.all_eq_true] at h
  exact scanA_id_of (fun t ht => Option.isNone_iff_eq_none.mp (h.2 t ht)) _ _
    (fun _ => Option.isNone_iff_eq_none.mp h.1)

/-! ### When the individual matchers cannot fire -/

theorem boldM_none {c : Char} (h : c ≠ '*') (r : List Char) : boldM (c :: r) = none := by
  cases r with
  | nil => rfl
  | cons c₁ r' => simp [boldM, h]

theorem boldM_none₂ {c₁ : Char} (c₀ : Char) (h : c₁ ≠ '*') (r : List Char) :
    boldM (c₀ :: c₁ :: r) = none := by
  simp [boldM, h]

theorem italicM_none {c : Char} (h : c ≠ '*') (r : List Char) : italicM (c :: r) = none := by
  simp [italicM, h]

theorem delM_none {c : Char} (h : c ≠ '~') (r : List Char) : delM (c :: r) = none := by
  cases r with
  | nil => rfl
  | cons c₁ r' => simp [delM, h]

theorem linkM_none {c : Char} (h : c ≠ '[') (r : List Char) : linkM (c :: r) = none := by
  simp [linkM, h]

theorem headingM_none {c : Char} (h : c ≠ '#') (r : List Char) : headingM (c :: r) = none := by
  simp [headingM, h]

theorem codeM_none {c : Char} (h : c ≠ '`') (r : List Char) : codeM (c :: r) = none := by
  cases r with
  | nil => rfl
  | cons c₁ r' => simp [codeM, h]

theorem fenceM_none {c : Char} (h : c ≠ '`') (r : List Char) : fenceM (c :: r) = none := by
  rcases r with _ | ⟨c₁, _ | ⟨c₂, _ | ⟨c₃, r'⟩⟩⟩
  · rfl
  · rfl
  · rfl
  · simp [fenceM, h]

theorem quoteM_none {c : Char} (h : c ≠ '>') (r : List Char) : quoteM (c :: r) = none := by
  simp [quoteM, h]

theorem ulM_none {c : Char} (h : c ≠ '*') (r : List Char) : ulM (c :: r) = none := by
  cases r with
  | nil => rfl
  | cons c₁ r' => simp [ulM, h]

theorem ulM_none₂ {c₁ : Char} (c₀ : Char) (h : isWs c₁ = false) (r : List Char) :
    ulM (c₀ :: c₁ :: r) = none := by
  simp [ulM, h]

theorem olM_none {c : Char} (h : c.isDigit = false) (r : List Char) : olM (c :: r) = none := by
  simp [olM, h]

theorem imgM_none {c : Char} (h : c ≠ '!') (r : List Char) : imgM (c :: r) = none := by
  cases r with
  | nil => rfl
  | cons c₁ r' => simp [imgM, h]

theorem tableM_none {c : Char} (mk : List Char → List Char) (h : c ≠ '|') (r : List Char) :
    tableM mk (c :: r) = none := by
  simp [tableM, h]

theorem findClose_none_of_not_mem {ch : Char} {ok : Char → Bool} {l : List Char}
    (h : ∀ x ∈ l, x ≠ ch) : findClose [ch] ok l = none := by
  induction l with
  | nil => rfl
  | cons c cs ih =>
    have hc : (ch == c) = false :=
      beq_eq_false_iff_ne.mpr fun e => h c (List.mem_cons_self ..) e.symm
    have ih' := ih fun x hx => h x (List.mem_cons_of_mem _ hx)
    cases hok : ok c <;> simp [findClose, List.isPrefixOf, hc, hok, ih']

theorem findClose_blocked {ch y : Char} {ok : Char → Bool} (xs : List Char) (ys : List Char)
    (hxs : ∀ x ∈ xs, x ≠ ch) (hy : y ≠ ch) (hoky : ok y = false) :
    findClose [ch] ok (xs ++ y :: ys) = none := by
  induction xs with
  | nil =>
    have hc : (ch == y) = false := beq_eq_false_iff_ne.mpr fun e => hy e.symm
    simp [findClose, List.isPrefixOf, hc, hoky]
  | cons c cs ih =>
    have hc : (ch == c) = false :=
      beq_eq_false_iff_ne.mpr fun e => hxs c (List.mem_cons_self ..) e.symm
    have ih' := ih fun x hx => hxs x (List.mem_cons_of_mem _ hx)
    cases hok : ok c <;> simp [findClose, List.isPrefixOf, hc, hok, ih']

/-! ### Claim theorems -/

/-- C1: the claim says `render("![alt](http://img)")` is the `<img>` form and
that the link rule cannot shadow the image rule.  In the code the link rule
(applied first) matches the `[alt](http://img)` part of the image construct,
so the output is `!<a href="http://img">alt</a>` and never reaches the image
rule — the code contradicts its own comment
`// Images (![alt text](url) → <img src="url" alt="alt text"/>)`. -/
theorem image_rule_shadowed_by_link :
    parseMarkdownToHTML "![alt](http://img)" = "!<a href=\"http://img\">alt</a>" ∧
    parseMarkdownToHTML "![alt](http://img)" ≠ "<img src=\"http://img\" alt=\"alt\"/>" := by
  decide

/-- C2 (counterexample): the claim asserts that the second table pass matches
the lines already transformed by the first pass and rewrites them into row
form `<tr><td>..</td></tr></tbody></table>`.  On `"|a|b|"` the first pass
output no longer begins with `|`, the second pass leaves it unchanged, and no
`<td>` appears in the rendered output. -/
theorem table_second_pass_never_rematches :
    linePass (tableM mkTd) (linePass (tableM mkTh) ("|a|b|".data)) =
      linePass (tableM mkTh) ("|a|b|".data) ∧
    ¬ ("<td>".data <:+: (parseMarkdownToHTML "|a|b|").data) := by
  decide

/-- C3: the claim (and the source comment on the code-block rule) says
`render("```block```")` is `<pre><code>block</code></pre>`.  Because the
inline-code rule runs first and consumes `` `block` `` out of the fence, the
code actually produces ``"``<code>block</code>``"`` and the fence rule never
matches. -/
theorem fenced_block_broken_by_inline_code :
    parseMarkdownToHTML "```block```" = "``<code>block</code>``" ∧
    parseMarkdownToHTML "```block```" ≠ "<pre><code>block</code></pre>" := by
  decide

/-- C5: bold is substituted before italic, and on
`"**bold** and *italic*"` the two rules produce exactly one `<strong>` and
one `<em>` span. -/
theorem bold_before_italic_ordering :
    parseMarkdownToHTML "**bold** and *italic*" =
      "<strong>bold</strong> and <em>italic</em>" := by
  decide

/-- C7: the renderer is not idempotent.  On `"``a``"` the inline-code rule
leaves one unconsumed backtick on each side, and a second run pairs those
leftovers into a fresh `<code>` span. -/
theorem render_not_idempotent :
    ∃ x : String, parseMarkdownToHTML (parseMarkdownToHTML x) ≠ parseMarkdownToHTML x :=
  ⟨"``a``", by decide⟩

/-- C8: the renderer is a pure function of its input text: equal inputs give
equal outputs, and the embedding (like the source, which only rebinds the
local variable `text`) threads no state whatsoever. -/
theorem parseMarkdownToHTML_deterministic (s t : String) (h : s = t) :
    parseMarkdownToHTML s = parseMarkdownToHTML t := by
  rw [h]

theorem parseMarkdownToHTML_deterministic_witness :
    parseMarkdownToHTML "**x**" = parseMarkdownToHTML "**x**" :=
  parseMarkdownToHTML_deterministic "**x**" "**x**" rfl

/-- C4: if none of the thirteen patterns matches anywhere in the input (at any
position for the position-free rules, at any beginning-of-line position for the
anchored rules), the renderer is the identity; in particular `<`, `>` and `&`
are never escaped. -/
theorem render_identity_on_plain (s : String)
    (h₁ : noFireC boldM s.data = true) (h₂ : noFireC italicM s.data = true)
    (h₃ : noFireC delM s.data = true) (h₄ : noFireC linkM s.data = true)
    (h₅ : noFireL headingM s.data = true) (h₆ : noFireC codeM s.data = true)
    (h₇ : noFireC fenceM s.data = true) (h₈ : noFireL quoteM s.data = true)
    (h₉ : noFireL ulM s.data = true) (h₁₀ : noFireL olM s.data = true)
    (h₁₁ : noFireC imgM s.data = true) (h₁₂ : noFireL (tableM mkTh) s.data = true)
    (h₁₃ : noFireL (tableM mkTd) s.data = true) :
    parseMarkdownToHTML s = s := by
  have hr : render s.data = s.data := by
    simp only [render]
    rw [charPass_id h₁, charPass_id h₂, charPass_id h₃, charPass_id h₄, linePass_id h₅,
      charPass_id h₆, charPass_id h₇, linePass_id h₈, linePass_id h₉, linePass_id h₁₀,
      charPass_id h₁₁, linePass_id h₁₂, linePass_id h₁₃]
  show (⟨render s.data⟩ : String) = s
  rw [hr]

theorem render_identity_on_plain_witness :
    parseMarkdownToHTML "hello <script>alert(1)</script> & bye" =
      "hello <script>alert(1)</script> & bye" :=
  render_identity_on_plain _ (by decide) (by decide) (by decide) (by decide) (by decide)
    (by decide) (by decide) (by decide) (by decide) (by decide) (by decide) (by decide)
    (by decide)

/-- C10: in the `/api/chat` handler the missing-key check precedes
`readBody`, so with a missing (or empty) key the response is the 500 error
object no matter what the body holds, and a 400 response implies the key was
configured. -/
theorem chatHandler_key_check_before_body (k : Option String) (b₁ b₂ : RequestBody)
    (g₁ g₂ : Except String String) :
    (falsyStr k = true →
      chatHandler k b₁ g₁ = chatHandler k b₂ g₂ ∧
      (chatHandler k b₁ g₁).status = 500 ∧ (chatHandler k b₁ g₁).error = true) ∧
    ((chatHandler k b₁ g₁).status = 400 → falsyStr k = false) := by
  constructor
  · intro hk
    simp [chatHandler, hk]
  · intro h400
    cases hk : falsyStr k with
    | false => rfl
    | true => simp [chatHandler, hk] at h400

theorem chatHandler_key_check_before_body_witness :
    chatHandler none ⟨some "hi"⟩ (Except.ok "reply") =
      chatHandler none ⟨none⟩ (Except.error "boom") ∧
    (chatHandler none ⟨some "hi"⟩ (Except.ok "reply")).status = 500 := by
  have h := chatHandler_key_check_before_body none ⟨some "hi"⟩ ⟨none⟩
    (Except.ok "reply") (Except.error "boom")
  exact ⟨(h.1 rfl).1, (h.1 rfl).2.1⟩

/-! ### Symbolic pass computations for the list and heading rules -/

/-- Characters that occur in none of the thirteen trigger patterns. -/
def plainChar (c : Char) : Bool :=
  !(c = '#' || c = '*' || c = '~' || c = '`' || c = '[' || c = '!' || isNl c)

theorem plainChar_spec {c : Char} (h : plainChar c = true) :
    c ≠ '#' ∧ c ≠ '*' ∧ c ≠ '~' ∧ c ≠ '`' ∧ c ≠ '[' ∧ c ≠ '!' ∧ isNl c = false := by
  simp only [plainChar, Bool.not_eq_true', Bool.or_eq_false_iff,
    decide_eq_false_iff_not] at h
  exact ⟨h.1.1.1.1.1.1, h.1.1.1.1.1.2, h.1.1.1.1.2, h.1.1.1.2, h.1.1.2, h.1.2, h.2⟩

theorem charPass_id_of_heads {m : List Char → Option (List Char × List Char)} {l : List Char}
    (h : ∀ c r, c ∈ l → m (c :: r) = none) : charPass m l = l :=
  gsubA_id_of_heads h _

theorem linePass_id_of_line {m : List Char → Option (List Char × List Char)} {l : List Char}
    (hm : m l = none) (hn : ∀ x ∈ l, isNl x = false) : linePass m l = l := by
  cases l with
  | nil => exact scanA_nil ..
  | cons c cs =>
    unfold linePass
    rw [scanA_cons_true_none hm, hn c (List.mem_cons_self ..),
      scanA_false_id (fun x hx => hn x (List.mem_cons_of_mem _ hx))]

theorem linePass_id_of_lines {m : List Char → Option (List Char × List Char)}
    {l₁ l₂ : List Char} (hne : l₁ ≠ [])
    (h₁ : m (l₁ ++ '\n' :: l₂) = none) (h₂ : m l₂ = none)
    (hn₁ : ∀ x ∈ l₁, isNl x = false) (hn₂ : ∀ x ∈ l₂, isNl x = false) :
    linePass m (l₁ ++ '\n' :: l₂) = l₁ ++ '\n' :: l₂ := by
  obtain ⟨c, tx, rfl⟩ : ∃ c tx, l₁ = c :: tx := by
    cases l₁ with
    | nil => simp at hne
    | cons c tx => exact ⟨c, tx, rfl⟩
  unfold linePass
  rw [List.cons_append,
    scanA_cons_true_none (show m (c :: (tx ++ '\n' :: l₂)) = none from h₁),
    hn₁ c (List.mem_cons_self ..),
    scanA_skip_false tx (fun x hx => hn₁ x (List.mem_cons_of_mem _ hx)),
    scanA_cons_false]
  have h2 : scanA m (List.length (c :: (tx ++ '\n' :: l₂)) - 1 - tx.length - 1)
      (isNl '\n') l₂ = l₂ := by
    rw [show isNl '\n' = true from rfl]
    cases l₂ with
    | nil => exact scanA_nil ..
    | cons c₂ ty =>
      rw [scanA_cons_true_none h₂, hn₂ c₂ (List.mem_cons_self ..),
        scanA_false_id (fun x hx => hn₂ x (List.mem_cons_of_mem _ hx))]
  rw [h2]

theorem takeWhile_all_true {α} {p : α → Bool} {l : List α} (h : ∀ x ∈ l, p x = true) :
    l.takeWhile p = l := by
  induction l with
  | nil => rfl
  | cons c cs ih =>
    rw [List.takeWhile_cons_of_pos (h c (List.mem_cons_self ..))]
    exact congrArg (c :: ·) (ih fun x hx => h x (List.mem_cons_of_mem _ hx))

theorem dropWhile_all_true {α} {p : α → Bool} {l : List α} (h : ∀ x ∈ l, p x = true) :
    l.dropWhile p = [] := by
  induction l with
  | nil => rfl
  | cons c cs ih =>
    rw [List.dropWhile_cons_of_pos (h c (List.mem_cons_self ..))]
    exact ih fun x hx => h x (List.mem_cons_of_mem _ hx)

theorem takeWhile_append_cons_stop {α} {p : α → Bool} {xs l : List α} {y : α}
    (hxs : ∀ x ∈ xs, p x = true) (hy : p y = false) :
    (xs ++ y :: l).takeWhile p = xs := by
  induction xs with
  | nil => exact List.takeWhile_cons_of_neg (by simp [hy])
  | cons c cs ih =>
    rw [List.cons_append, List.takeWhile_cons_of_pos (hxs c (List.mem_cons_self ..))]
    exact congrArg (c :: ·) (ih fun x hx => hxs x (List.mem_cons_of_mem _ hx))

theorem dropWhile_append_cons_stop {α} {p : α → Bool} {xs l : List α} {y : α}
    (hxs : ∀ x ∈ xs, p x = true) (hy : p y = false) :
    (xs ++ y :: l).dropWhile p = y :: l := by
  induction xs with
  | nil => exact List.dropWhile_cons_of_neg (by simp [hy])
  | cons c cs ih =>
    rw [List.cons_append, List.dropWhile_cons_of_pos (hxs c (List.mem_cons_self ..))]
    exact ih fun x hx => hxs x (List.mem_cons_of_mem _ hx)

/-- C9: a line starting with six-plus-`n` `#` characters (`n ≥ 1`, so seven or
more) is wrapped as an `<h6>` heading whose content starts with the `n`
surplus `#` characters: the pattern consumes exactly six `#`, the whitespace
run after them is empty, and the rest of the line is the capture. -/
theorem heading_overflow_hashes_h6 (n : Nat) (rest : List Char) (hn : 0 < n)
    (hrest : ∀ c ∈ rest, plainChar c = true) :
    parseMarkdownToHTML
        ⟨'#' :: '#' :: '#' :: '#' :: '#' :: '#' :: (List.replicate n '#' ++ rest)⟩ =
      ⟨['<', 'h', '6', '>'] ++ (List.replicate n '#' ++ rest) ++ ['<', '/', 'h', '6', '>']⟩ := by
  obtain ⟨m', rfl⟩ : ∃ m', n = m' + 1 := ⟨n - 1, by omega⟩
  set l : List Char :=
    '#' :: '#' :: '#' :: '#' :: '#' :: '#' :: (List.replicate (m' + 1) '#' ++ rest) with hldef
  set o : List Char :=
    ['<', 'h', '6', '>'] ++ (List.replicate (m' + 1) '#' ++ rest) ++ ['<', '/', 'h', '6', '>']
    with hodef
  have hmem : ∀ c ∈ l, c = '#' ∨ plainChar c = true := by
    intro c hc
    rw [hldef] at hc
    simp only [List.mem_cons, List.mem_append, List.mem_replicate] at hc
    rcases hc with rfl | rfl | rfl | rfl | rfl | rfl | ⟨_, rfl⟩ | hc
    · exact Or.inl rfl
    · exact Or.inl rfl
    · exact Or.inl rfl
    · exact Or.inl rfl
    · exact Or.inl rfl
    · exact Or.inl rfl
    · exact Or.inl rfl
    · exact Or.inr (hrest c hc)
  have hAll : ∀ c ∈ l, c ≠ '*' ∧ c ≠ '~' ∧ c ≠ '[' ∧ c ≠ '`' ∧ c ≠ '!' ∧ isNl c = false := by
    intro c hc
    rcases hmem c hc with rfl | hp
    · exact ⟨by decide, by decide, by decide, by decide, by decide, by decide⟩
    · have := plainChar_spec hp
      tauto
  have p₁ : charPass boldM l = l :=
    charPass_id_of_heads fun c r hc => boldM_none (hAll c hc).1 r
  have p₂ : charPass italicM l = l :=
    charPass_id_of_heads fun c r hc => italicM_none (hAll c hc).1 r
  have p₃ : charPass delM l = l :=
    charPass_id_of_heads fun c r hc => delM_none (hAll c hc).2.1 r
  have p₄ : charPass linkM l = l :=
    charPass_id_of_heads fun c r hc => linkM_none (hAll c hc).2.2.1 r
  have hnl : ∀ x ∈ List.replicate (m' + 1) '#' ++ rest, (!isNl x) = true := by
    intro x hx
    rcases List.mem_append.mp hx with hx | hx
    · rw [List.eq_of_mem_replicate hx]; decide
    · rw [(plainChar_spec (hrest x hx)).2.2.2.2.2.2]; rfl
  have hhm : headingM l = some (o, []) := by
    rw [hldef, hodef]
    simp only [headingM, if_pos]
    have htw : List.takeWhile (fun c => decide (c = '#'))
        ('#' :: '#' :: '#' :: '#' :: '#' :: '#' :: (List.replicate (m' + 1) '#' ++ rest)) =
        '#' :: '#' :: '#' :: '#' :: '#' :: '#' ::
          List.takeWhile (fun c => decide (c = '#')) (List.replicate (m' + 1) '#' ++ rest) := by
      simp [List.takeWhile_cons]
    rw [htw]
    have hk : min (('#' :: '#' :: '#' :: '#' :: '#' :: '#' ::
        List.takeWhile (fun c => decide (c = '#'))
          (List.replicate (m' + 1) '#' ++ rest)).length) 6 = 6 := by
      simp only [List.length_cons]
      omega
    rw [hk]
    have hdrop : List.drop 6
        ('#' :: '#' :: '#' :: '#' :: '#' :: '#' :: (List.replicate (m' + 1) '#' ++ rest)) =
        List.replicate (m' + 1) '#' ++ rest := rfl
    rw [hdrop]
    have hws : List.dropWhile isWs (List.replicate (m' + 1) '#' ++ rest) =
        List.replicate (m' + 1) '#' ++ rest := by
      rw [List.replicate_succ, List.cons_append, List.dropWhile_cons_of_neg (by decide)]
    rw [hws, takeWhile_all_true hnl, dropWhile_all_true hnl]
  have p₅ : linePass headingM l = o := by
    rw [hldef] at hhm ⊢
    unfold linePass
    rw [List.length_cons, scanA_cons_true_some hhm, scanA_nil, List.append_nil]
  have hoAll : ∀ c ∈ o, c ≠ '`' ∧ c ≠ '!' ∧ isNl c = false ∧ c ≠ '*' ∧ c ≠ '~' ∧ c ≠ '[' := by
    intro c hc
    rw [hodef] at hc
    rcases List.mem_append.mp hc with hc | hc
    · rcases List.mem_append.mp hc with hc | hc
      · fin_cases hc <;> decide
      · rcases List.mem_append.mp hc with hc | hc
        · rw [List.eq_of_mem_replicate hc]; decide
        · have := plainChar_spec (hrest c hc)
          tauto
    · fin_cases hc <;> decide
  have honl : ∀ x ∈ o, isNl x = false := fun x hx => (hoAll x hx).2.2.1
  have p₆ : charPass codeM o = o :=
    charPass_id_of_heads fun c r hc => codeM_none (hoAll c hc).1 r
  have p₇ : charPass fenceM o = o :=
    charPass_id_of_heads fun c r hc => fenceM_none (hoAll c hc).1 r
  have p₈ : linePass quoteM o = o :=
    linePass_id_of_line (by rw [hodef]; exact quoteM_none (by decide) _) honl
  have p₉ : linePass ulM o = o :=
    linePass_id_of_line (by rw [hodef]; exact ulM_none (by decide) _) honl
  have p₁₀ : linePass olM o = o :=
    linePass_id_of_line (by rw [hodef]; exact olM_none (by decide) _) honl
  have p₁₁ : charPass imgM o = o :=
    charPass_id_of_heads fun c r hc => imgM_none (hoAll c hc).2.1 r
  have p₁₂ : linePass (tableM mkTh) o = o :=
    linePass_id_of_line (by rw [hodef]; exact tableM_none mkTh (by decide) _) honl
  have p₁₃ : linePass (tableM mkTd) o = o :=
    linePass_id_of_line (by rw [hodef]; exact tableM_none mkTd (by decide) _) honl
  have hrender : render l = o := by
    simp only [render]
    rw [p₁, p₂, p₃, p₄, p₅, p₆, p₇, p₈, p₉, p₁₀, p₁₁, p₁₂, p₁₃]
  exact congrArg String.mk hrender

/-- A position-free pass that fires on none of the positions of a one-line
`* `-item leaves it unchanged. -/
theorem charPass_id_star₁ {m : List Char → Option (List Char × List Char)} (a : List Char)
    (hsp : ∀ r, m (' ' :: r) = none)
    (hma : ∀ c r, c ∈ a → m (c :: r) = none)
    (h1 : m ('*' :: ' ' :: a) = none) :
    charPass m ('*' :: ' ' :: a) = '*' :: ' ' :: a := by
  unfold charPass
  rw [gsubA_cons_none h1, gsubA_cons_none (hsp _), gsubA_id_of_heads hma]

/-- A position-free pass that fires on none of the positions of two `* `-item
lines leaves them unchanged. -/
theorem charPass_id_star₂ {m : List Char → Option (List Char × List Char)} (a b : List Char)
    (hsp : ∀ r, m (' ' :: r) = none) (hnl : ∀ r, m ('\n' :: r) = none)
    (hma : ∀ c r, c ∈ a → m (c :: r) = none) (hmb : ∀ c r, c ∈ b → m (c :: r) = none)
    (h1 : m ('*' :: ' ' :: (a ++ '\n' :: '*' :: ' ' :: b)) = none)
    (h2 : m ('*' :: ' ' :: b) = none) :
    charPass m ('*' :: ' ' :: (a ++ '\n' :: '*' :: ' ' :: b)) =
      '*' :: ' ' :: (a ++ '\n' :: '*' :: ' ' :: b) := by
  unfold charPass
  rw [gsubA_cons_none h1, gsubA_cons_none (hsp _), gsubA_skip a hma,
    gsubA_cons_none (hnl _), gsubA_cons_none h2, gsubA_cons_none (hsp _),
    gsubA_id_of_heads hmb]

/-- A line-anchored pass whose matcher rejects both `* `-item lines leaves the
two-line text unchanged. -/
theorem linePass_id_star₂ {m : List Char → Option (List Char × List Char)} (a b : List Char)
    (hna : ∀ x ∈ a, isNl x = false) (hnb : ∀ x ∈ b, isNl x = false)
    (h1 : m ('*' :: ' ' :: (a ++ '\n' :: '*' :: ' ' :: b)) = none)
    (h2 : m ('*' :: ' ' :: b) = none) :
    linePass m ('*' :: ' ' :: (a ++ '\n' :: '*' :: ' ' :: b)) =
      '*' :: ' ' :: (a ++ '\n' :: '*' :: ' ' :: b) := by
  unfold linePass
  rw [scanA_cons_true_none h1, show isNl '*' = false from by decide,
    scanA_cons_false, show isNl ' ' = false from by decide,
    scanA_skip_false a hna, scanA_cons_false,
    show isNl '\n' = true from rfl,
    scanA_cons_true_none h2, show isNl '*' = false from by decide,
    scanA_cons_false, show isNl ' ' = false from by decide,
    scanA_false_id hnb]

/-- The list rule on a single `* `-item line: the line is wrapped in its own
`<ul><li>…</li></ul>`. -/
theorem ulPass_star₁ (a : List Char) (hna : ∀ x ∈ a, isNl x = false) :
    linePass ulM ('*' :: ' ' :: a) =
      ['<', 'u', 'l', '>', '<', 'l', 'i', '>'] ++ a ++
        ['<', '/', 'l', 'i', '>', '<', '/', 'u', 'l', '>'] := by
  have hm : ulM ('*' :: ' ' :: a) =
      some (['<', 'u', 'l', '>', '<', 'l', 'i', '>'] ++ a ++
        ['<', '/', 'l', 'i', '>', '<', '/', 'u', 'l', '>'], []) := by
    simp only [ulM, if_pos (⟨rfl, rfl⟩ : ('*' : Char) = '*' ∧ isWs ' ' = true)]
    rw [takeWhile_all_true fun x hx => by rw [hna x hx]; rfl,
      dropWhile_all_true fun x hx => by rw [hna x hx]; rfl,
      if_pos (⟨trivial, rfl⟩ : True ∧ isWs ' ' = true)]
  unfold linePass
  rw [List.length_cons, scanA_cons_true_some hm, scanA_nil, List.append_nil]

/-- The list rule on two consecutive `* `-item lines: each line is wrapped
independently in its own `<ul><li>…</li></ul>`; no merging happens. -/
theorem ulPass_star₂ (a b : List Char) (hna : ∀ x ∈ a, isNl x = false)
    (hnb : ∀ x ∈ b, isNl x = false) :
    linePass ulM ('*' :: ' ' :: (a ++ '\n' :: '*' :: ' ' :: b)) =
      (['<', 'u', 'l', '>', '<', 'l', 'i', '>'] ++ a ++
        ['<', '/', 'l', 'i', '>', '<', '/', 'u', 'l', '>']) ++
      '\n' :: (['<', 'u', 'l', '>', '<', 'l', 'i', '>'] ++ b ++
        ['<', '/', 'l', 'i', '>', '<', '/', 'u', 'l', '>']) := by
  have hm1 : ulM ('*' :: ' ' :: (a ++ '\n' :: '*' :: ' ' :: b)) =
      some (['<', 'u', 'l', '>', '<', 'l', 'i', '>'] ++ a ++
        ['<', '/', 'l', 'i', '>', '<', '/', 'u', 'l', '>'], '\n' :: '*' :: ' ' :: b) := by
    simp only [ulM, if_pos (⟨rfl, rfl⟩ : ('*' : Char) = '*' ∧ isWs ' ' = true)]
    rw [takeWhile_append_cons_stop (fun x hx => by rw [hna x hx]; rfl) (by decide),
      dropWhile_append_cons_stop (fun x hx => by rw [hna x hx]; rfl) (by decide),
      if_pos (⟨trivial, rfl⟩ : True ∧ isWs ' ' = true)]
  have hm2 : ulM ('*' :: ' ' :: b) =
      some (['<', 'u', 'l', '>', '<', 'l', 'i', '>'] ++ b ++
        ['<', '/', 'l', 'i', '>', '<', '/', 'u', 'l', '>'], []) := by
    simp only [ulM, if_pos (⟨rfl, rfl⟩ : ('*' : Char) = '*' ∧ isWs ' ' = true)]
    rw [takeWhile_all_true fun x hx => by rw [hnb x hx]; rfl,
      dropWhile_all_true fun x hx => by rw [hnb x hx]; rfl,
      if_pos (⟨trivial, rfl⟩ : True ∧ isWs ' ' = true)]
  unfold linePass
  rw [List.length_cons, scanA_cons_true_some hm1, scanA_cons_false,
    show isNl '\n' = true from rfl]
  have hF : (' ' :: (a ++ '\n' :: '*' :: ' ' :: b)).length - 1 =
      (a.length + b.length + 2) + 1 := by
    simp only [List.length_cons, List.length_append]
    omega
  rw [hF, scanA_cons_true_some hm2, scanA_nil, List.append_nil]

theorem heading_overflow_hashes_h6_witness :
    parseMarkdownToHTML
        ⟨'#' :: '#' :: '#' :: '#' :: '#' :: '#' :: (List.replicate 1 '#' ++ [' ', 'x'])⟩ =
      ⟨['<', 'h', '6', '>'] ++ (List.replicate 1 '#' ++ [' ', 'x']) ++
        ['<', '/', 'h', '6', '>']⟩ :=
  heading_overflow_hashes_h6 1 [' ', 'x'] (by decide) (by decide)

/-- Full renderer on one `* `-item line of plain content: exactly the list
rule fires, producing a single wrapped item. -/
theorem render_star_line (a : List Char) (ha : ∀ c ∈ a, plainChar c = true) :
    parseMarkdownToHTML ⟨'*' :: ' ' :: a⟩ =
      ⟨['<', 'u', 'l', '>', '<', 'l', 'i', '>'] ++ a ++
        ['<', '/', 'l', 'i', '>', '<', '/', 'u', 'l', '>']⟩ := by
  set t : List Char := '*' :: ' ' :: a with htdef
  set w : List Char := ['<', 'u', 'l', '>', '<', 'l', 'i', '>'] ++ a ++
    ['<', '/', 'l', 'i', '>', '<', '/', 'u', 'l', '>'] with hwdef
  have haS := fun c hc => plainChar_spec (ha c hc)
  have hna : ∀ x ∈ a, isNl x = false := fun x hx => (haS x hx).2.2.2.2.2.2
  have htNe : ∀ c ∈ t, c ≠ '~' ∧ c ≠ '[' ∧ c ≠ '`' ∧ isNl c = false := by
    intro c hc
    rw [htdef] at hc
    rcases List.mem_cons.mp hc with rfl | hc
    · exact ⟨by decide, by decide, by decide, by decide⟩
    rcases List.mem_cons.mp hc with rfl | hc
    · exact ⟨by decide, by decide, by decide, by decide⟩
    · have := haS c hc
      tauto
  have hnt : ∀ x ∈ t, isNl x = false := fun x hx => (htNe x hx).2.2.2
  have p₁ : charPass boldM t = t := by
    rw [htdef]
    exact charPass_id_star₁ a (fun r => boldM_none (by decide) r)
      (fun c r hc => boldM_none (haS c hc).2.1 r) (boldM_none₂ '*' (by decide) a)
  have p₂ : charPass italicM t = t := by
    rw [htdef]
    have hfc : findClose ['*'] (fun c => !isNl c) (' ' :: a) = none :=
      findClose_none_of_not_mem (by
        intro x hx
        rcases List.mem_cons.mp hx with rfl | hx
        · decide
        · exact (haS x hx).2.1)
    have h1 : italicM ('*' :: ' ' :: a) = none := by
      simp only [italicM]
      rw [if_pos trivial, hfc]
    exact charPass_id_star₁ a (fun r => italicM_none (by decide) r)
      (fun c r hc => italicM_none (haS c hc).2.1 r) h1
  have p₃ : charPass delM t = t :=
    charPass_id_of_heads fun c r hc => delM_none (htNe c hc).1 r
  have p₄ : charPass linkM t = t :=
    charPass_id_of_heads fun c r hc => linkM_none (htNe c hc).2.1 r
  have p₅ : linePass headingM t = t :=
    linePass_id_of_line (by rw [htdef]; exact headingM_none (by decide) _) hnt
  have p₆ : charPass codeM t = t :=
    charPass_id_of_heads fun c r hc => codeM_none (htNe c hc).2.2.1 r
  have p₇ : charPass fenceM t = t :=
    charPass_id_of_heads fun c r hc => fenceM_none (htNe c hc).2.2.1 r
  have p₈ : linePass quoteM t = t :=
    linePass_id_of_line (by rw [htdef]; exact quoteM_none (by decide) _) hnt
  have p₉ : linePass ulM t = w := by
    rw [htdef, hwdef]
    exact ulPass_star₁ a hna
  have hwNe : ∀ c ∈ w, c ≠ '!' ∧ isNl c = false := by
    intro c hc
    rw [hwdef] at hc
    rcases List.mem_append.mp hc with hc | hc
    · rcases List.mem_append.mp hc with hc | hc
      · fin_cases hc <;> decide
      · have := haS c hc
        tauto
    · fin_cases hc <;> decide
  have hnw : ∀ x ∈ w, isNl x = false := fun x hx => (hwNe x hx).2
  have p₁₀ : linePass olM w = w :=
    linePass_id_of_line (by rw [hwdef]; exact olM_none (by decide) _) hnw
  have p₁₁ : charPass imgM w = w :=
    charPass_id_of_heads fun c r hc => imgM_none (hwNe c hc).1 r
  have p₁₂ : linePass (tableM mkTh) w = w :=
    linePass_id_of_line (by rw [hwdef]; exact tableM_none mkTh (by decide) _) hnw
  have p₁₃ : linePass (tableM mkTd) w = w :=
    linePass_id_of_line (by rw [hwdef]; exact tableM_none mkTd (by decide) _) hnw
  have hrender : render t = w := by
    simp only [render]
    rw [p₁, p₂, p₃, p₄, p₅, p₆, p₇, p₈, p₉, p₁₀, p₁₁, p₁₂, p₁₃]
  exact congrArg String.mk hrender

/-- Full renderer on two consecutive `* `-item lines of plain content: each
line is independently wrapped in its own `<ul>…</ul>` pair, joined by the
original newline; the lists are never merged. -/
theorem render_star_lines (a b : List Char) (ha : ∀ c ∈ a, plainChar c = true)
    (hb : ∀ c ∈ b, plainChar c = true) :
    parseMarkdownToHTML ⟨'*' :: ' ' :: (a ++ '\n' :: '*' :: ' ' :: b)⟩ =
      ⟨(['<', 'u', 'l', '>', '<', 'l', 'i', '>'] ++ a ++
          ['<', '/', 'l', 'i', '>', '<', '/', 'u', 'l', '>']) ++
        '\n' :: (['<', 'u', 'l', '>', '<', 'l', 'i', '>'] ++ b ++
          ['<', '/', 'l', 'i', '>', '<', '/', 'u', 'l', '>'])⟩ := by
  set t : List Char := '*' :: ' ' :: (a ++ '\n' :: '*' :: ' ' :: b) with htdef
  set w₁ : List Char := ['<', 'u', 'l', '>', '<', 'l', 'i', '>'] ++ a ++
    ['<', '/', 'l', 'i', '>', '<', '/', 'u', 'l', '>'] with hw₁def
  set w₂ : List Char := ['<', 'u', 'l', '>', '<', 'l', 'i', '>'] ++ b ++
    ['<', '/', 'l', 'i', '>', '<', '/', 'u', 'l', '>'] with hw₂def
  have haS := fun c hc => plainChar_spec (ha c hc)
  have hbS := fun c hc => plainChar_spec (hb c hc)
  have hna : ∀ x ∈ a, isNl x = false := fun x hx => (haS x hx).2.2.2.2.2.2
  have hnb : ∀ x ∈ b, isNl x = false := fun x hx => (hbS x hx).2.2.2.2.2.2
  have htNe : ∀ c ∈ t, c ≠ '~' ∧ c ≠ '[' ∧ c ≠ '`' := by
    intro c hc
    rw [htdef] at hc
    simp only [List.mem_cons, List.mem_append] at hc
    rcases hc with rfl | rfl | hc | rfl | rfl | rfl | hc
    · exact ⟨by decide, by decide, by decide⟩
    · exact ⟨by decide, by decide, by decide⟩
    · have := haS c hc
      tauto
    · exact ⟨by decide, by decide, by decide⟩
    · exact ⟨by decide, by decide, by decide⟩
    · exact ⟨by decide, by decide, by decide⟩
    · have := hbS c hc
      tauto
  have p₁ : charPass boldM t = t := by
    rw [htdef]
    exact charPass_id_star₂ a b (fun r => boldM_none (by decide) r)
      (fun r => boldM_none (by decide) r)
      (fun c r hc => boldM_none (haS c hc).2.1 r)
      (fun c r hc => boldM_none (hbS c hc).2.1 r)
      (boldM_none₂ '*' (by decide) _) (boldM_none₂ '*' (by decide) _)
  have p₂ : charPass italicM t = t := by
    rw [htdef]
    have hxs : ∀ x ∈ (' ' :: a), x ≠ '*' := by
      intro x hx
      rcases List.mem_cons.mp hx with rfl | hx
      · decide
      · exact (haS x hx).2.1
    have hfc1 : findClose ['*'] (fun c => !isNl c) (' ' :: (a ++ '\n' :: '*' :: ' ' :: b)) =
        none := by
      have h : findClose ['*'] (fun c => !isNl c) ((' ' :: a) ++ '\n' :: ('*' :: ' ' :: b)) =
          none := findClose_blocked (' ' :: a) ('*' :: ' ' :: b) hxs (by decide) (by decide)
      simpa using h
    have h1 : italicM ('*' :: ' ' :: (a ++ '\n' :: '*' :: ' ' :: b)) = none := by
      simp only [italicM]
      rw [if_pos trivial, hfc1]
    have hfc2 : findClose ['*'] (fun c => !isNl c) (' ' :: b) = none :=
      findClose_none_of_not_mem (by
        intro x hx
        rcases List.mem_cons.mp hx with rfl | hx
        · decide
        · exact (hbS x hx).2.1)
    have h2 : italicM ('*' :: ' ' :: b) = none := by
      simp only [italicM]
      rw [if_pos trivial, hfc2]
    exact charPass_id_star₂ a b (fun r => italicM_none (by decide) r)
      (fun r => italicM_none (by decide) r)
      (fun c r hc => italicM_none (haS c hc).2.1 r)
      (fun c r hc => italicM_none (hbS c hc).2.1 r) h1 h2
  have p₃ : charPass delM t = t :=
    charPass_id_of_heads fun c r hc => delM_none (htNe c hc).1 r
  have p₄ : charPass linkM t = t :=
    charPass_id_of_heads fun c r hc => linkM_none (htNe c hc).2.1 r
  have p₅ : linePass headingM t = t := by
    rw [htdef]
    exact linePass_id_star₂ a b hna hnb (headingM_none (by decide) _)
      (headingM_none (by decide) _)
  have p₆ : charPass codeM t = t :=
    charPass_id_of_heads fun c r hc => codeM_none (htNe c hc).2.2 r
  have p₇ : charPass fenceM t = t :=
    charPass_id_of_heads fun c r hc => fenceM_none (htNe c hc).2.2 r
  have p₈ : linePass quoteM t = t := by
    rw [htdef]
    exact linePass_id_star₂ a b hna hnb (quoteM_none (by decide) _)
      (quoteM_none (by decide) _)
  have p₉ : linePass ulM t = w₁ ++ '\n' :: w₂ := by
    rw [htdef, hw₁def, hw₂def]
    exact ulPass_star₂ a b hna hnb
  have hw₁Ne : ∀ c ∈ w₁, c ≠ '!' ∧ isNl c = false := by
    intro c hc
    rw [hw₁def] at hc
    rcases List.mem_append.mp hc with hc | hc
    · rcases List.mem_append.mp hc with hc | hc
      · fin_cases hc <;> decide
      · have := haS c hc
        tauto
    · fin_cases hc <;> decide
  have hw₂Ne : ∀ c ∈ w₂, c ≠ '!' ∧ isNl c = false := by
    intro c hc
    rw [hw₂def] at hc
    rcases List.mem_append.mp hc with hc | hc
    · rcases List.mem_append.mp hc with hc | hc
      · fin_cases hc <;> decide
      · have := hbS c hc
        tauto
    · fin_cases hc <;> decide
  have hnw₁ : ∀ x ∈ w₁, isNl x = false := fun x hx => (hw₁Ne x hx).2
  have hnw₂ : ∀ x ∈ w₂, isNl x = false := fun x hx => (hw₂Ne x hx).2
  have hw₁ne : w₁ ≠ [] := by rw [hw₁def]; simp
  have p₁₀ : linePass olM (w₁ ++ '\n' :: w₂) = w₁ ++ '\n' :: w₂ :=
    linePass_id_of_lines hw₁ne
      (by rw [hw₁def]; exact olM_none (by decide) _)
      (by rw [hw₂def]; exact olM_none (by decide) _) hnw₁ hnw₂
  have p₁₁ : charPass imgM (w₁ ++ '\n' :: w₂) = w₁ ++ '\n' :: w₂ := by
    refine charPass_id_of_heads fun c r hc => imgM_none ?_ r
    rcases List.mem_append.mp hc with hc | hc
    · exact (hw₁Ne c hc).1
    rcases List.mem_cons.mp hc with rfl | hc
    · decide
    · exact (hw₂Ne c hc).1
  have p₁₂ : linePass (tableM mkTh) (w₁ ++ '\n' :: w₂) = w₁ ++ '\n' :: w₂ :=
    linePass_id_of_lines hw₁ne
      (by rw [hw₁def]; exact tableM_none mkTh (by decide) _)
      (by rw [hw₂def]; exact tableM_none mkTh (by decide) _) hnw₁ hnw₂
  have p₁₃ : linePass (tableM mkTd) (w₁ ++ '\n' :: w₂) = w₁ ++ '\n' :: w₂ :=
    linePass_id_of_lines hw₁ne
      (by rw [hw₁def]; exact tableM_none mkTd (by decide) _)
      (by rw [hw₂def]; exact tableM_none mkTd (by decide) _) hnw₁ hnw₂
  have hrender : render t = w₁ ++ '\n' :: w₂ := by
    simp only [render]
    rw [p₁, p₂, p₃, p₄, p₅, p₆, p₇, p₈, p₉, p₁₀, p₁₁, p₁₂, p₁₃]
  exact congrArg String.mk hrender

/-- C6: a `* `-item line is rewritten to `<ul><li>content</li></ul>`, and two
consecutive `* `-item lines each get their own `<ul>` wrapper, joined by the
original newline — never one merged list.  The content ranges over plain
characters (no markdown metacharacters and no newline). -/
theorem ul_lines_wrap_independently (a b : List Char)
    (ha : ∀ c ∈ a, plainChar c = true) (hb : ∀ c ∈ b, plainChar c = true) :
    parseMarkdownToHTML ⟨'*' :: ' ' :: a⟩ =
      ⟨['<', 'u', 'l', '>', '<', 'l', 'i', '>'] ++ a ++
        ['<', '/', 'l', 'i', '>', '<', '/', 'u', 'l', '>']⟩ ∧
    parseMarkdownToHTML ⟨'*' :: ' ' :: (a ++ '\n' :: '*' :: ' ' :: b)⟩ =
      ⟨(['<', 'u', 'l', '>', '<', 'l', 'i', '>'] ++ a ++
          ['<', '/', 'l', 'i', '>', '<', '/', 'u', 'l', '>']) ++
        '\n' :: (['<', 'u', 'l', '>', '<', 'l', 'i', '>'] ++ b ++
          ['<', '/', 'l', 'i', '>', '<', '/', 'u', 'l', '>'])⟩ :=
  ⟨render_star_line a ha, render_star_lines a b ha hb⟩

theorem ul_lines_wrap_independently_witness :
    parseMarkdownToHTML ⟨'*' :: ' ' :: ['i', 't', 'e', 'm']⟩ =
      ⟨['<', 'u', 'l', '>', '<', 'l', 'i', '>'] ++ ['i', 't', 'e', 'm'] ++
        ['<', '/', 'l', 'i', '>', '<', '/', 'u', 'l', '>']⟩ ∧
    parseMarkdownToHTML ⟨'*' :: ' ' :: (['i', 't', 'e', 'm'] ++ '\n' :: '*' :: ' ' :: ['b'])⟩ =
      ⟨(['<', 'u', 'l', '>', '<', 'l', 'i', '>'] ++ ['i', 't', 'e', 'm'] ++
          ['<', '/', 'l', 'i', '>', '<', '/', 'u', 'l', '>']) ++
        '\n' :: (['<', 'u', 'l', '>', '<', 'l', 'i', '>'] ++ ['b'] ++
          ['<', '/', 'l', 'i', '>', '<', '/', 'u', 'l', '>'])⟩ :=
  ul_lines_wrap_independently ['i', 't', 'e', 'm'] ['b'] (by decide) (by decide)

/-! ### The table passes: the second pass can never re-match, on any input -/

theorem splitBar_subset : ∀ {content cell : List Char},
    cell ∈ splitBar content → ∀ c ∈ cell, c ∈ content := by
  intro content
  induction content with
  | nil =>
    intro cell hcell c hc
    simp only [splitBar, List.mem_singleton] at hcell
    subst hcell
    simp at hc
  | cons x xs ih =>
    intro cell hcell c hc
    cases hsb : splitBar xs with
    | nil =>
      simp only [splitBar, hsb, List.mem_singleton] at hcell
      subst hcell
      simp at hc
    | cons hh tt =>
      simp only [splitBar, hsb] at hcell
      by_cases hx : x = '|'
      · rw [if_pos hx] at hcell
        rcases List.mem_cons.mp hcell with rfl | hcell
        · simp at hc
        · exact List.mem_cons_of_mem _ (ih (by rw [hsb]; exact hcell) c hc)
      · rw [if_neg hx] at hcell
        rcases List.mem_cons.mp hcell with rfl | hcell
        · rcases List.mem_cons.mp hc with rfl | hc
          · exact List.mem_cons_self ..
          · exact List.mem_cons_of_mem _
              (ih (by rw [hsb]; exact List.mem_cons_self ..) c hc)
        · exact List.mem_cons_of_mem _
            (ih (by rw [hsb]; exact List.mem_cons_of_mem _ hcell) c hc)

theorem trimWs_subset {l : List Char} : ∀ c ∈ trimWs l, c ∈ l := by
  intro c hc
  simp only [trimWs] at hc
  rw [List.mem_reverse] at hc
  have h1 := List.dropWhile_subset isWs hc
  rw [List.mem_reverse] at h1
  exact List.dropWhile_subset isWs h1

/-- The header-form replacement contains no line terminator when the captured
cell row contains none. -/
theorem mkTh_no_nl {content : List Char} (h : ∀ d ∈ content, isNl d = false) :
    ∀ d ∈ mkTh content, isNl d = false := by
  intro d hd
  simp only [mkTh] at hd
  rcases List.mem_append.mp hd with hd | hd
  · rcases List.mem_append.mp hd with hd | hd
    · fin_cases hd <;> decide
    · rw [List.mem_flatten] at hd
      obtain ⟨piece, hpiece, hdp⟩ := hd
      rw [List.mem_map] at hpiece
      obtain ⟨cell, hcell, rfl⟩ := hpiece
      rcases List.mem_append.mp hdp with hdp | hdp
      · rcases List.mem_append.mp hdp with hdp | hdp
        · fin_cases hdp <;> decide
        · exact h d (splitBar_subset hcell d (trimWs_subset d hdp))
      · fin_cases hdp <;> decide
  · fin_cases hd <;> decide

theorem lineSuffixes_append_no_nl {rep : List Char} (h : ∀ d ∈ rep, isNl d = false)
    (x : List Char) : lineSuffixes (rep ++ x) = lineSuffixes x := by
  induction rep with
  | nil => rfl
  | cons c r ih =>
    rw [List.cons_append]
    simp [lineSuffixes, h c (List.mem_cons_self ..)]
    exact ih fun d hd => h d (List.mem_cons_of_mem _ hd)

/-- Scanning with the beginning-of-line flag off leaves the current line
untouched. -/
theorem scanA_false_takeWhile (m : List Char → Option (List Char × List Char)) :
    ∀ (fuel : Nat) (l : List Char),
      (scanA m fuel false l).takeWhile (fun d => !isNl d) =
        l.takeWhile (fun d => !isNl d) := by
  intro fuel
  induction fuel with
  | zero => intro l; rw [scanA_zero]
  | succ f ih =>
    intro l
    cases l with
    | nil => rw [scanA_nil]
    | cons c cs =>
      rw [scanA_cons_false, Nat.add_sub_cancel]
      cases hnc : isNl c with
      | false =>
        have e1 : (c :: scanA m f false cs).takeWhile (fun d => !isNl d) =
            c :: (scanA m f false cs).takeWhile (fun d => !isNl d) :=
          List.takeWhile_cons_of_pos (by rw [hnc]; rfl)
        have e2 : (c :: cs).takeWhile (fun d => !isNl d) =
            c :: cs.takeWhile (fun d => !isNl d) :=
          List.takeWhile_cons_of_pos (by rw [hnc]; rfl)
        rw [e1, e2]
        exact congrArg (c :: ·) (ih cs)
      | true =>
        have e1 : (c :: scanA m f true cs).takeWhile (fun d => !isNl d) = [] :=
          List.takeWhile_cons_of_neg (by simp [hnc])
        have e2 : (c :: cs).takeWhile (fun d => !isNl d) = [] :=
          List.takeWhile_cons_of_neg (by simp [hnc])
        rw [e1, e2]

/-- The two table substitutions share one matching condition; whether the rest
of the first line agrees is all that matters for a failure to transfer. -/
theorem tableM_none_of_line_eq {mk₁ mk₂ : List Char → List Char} {c : Char} {x x' : List Char}
    (h : tableM mk₁ (c :: x) = none)
    (hline : x'.takeWhile (fun d => !isNl d) = x.takeWhile (fun d => !isNl d)) :
    tableM mk₂ (c :: x') = none := by
  by_cases hc : c = '|'
  · subst hc
    have hl : tableLine ('|' :: x') = tableLine ('|' :: x) := by
      have e1 : tableLine ('|' :: x') = '|' :: x'.takeWhile (fun d => !isNl d) :=
        List.takeWhile_cons_of_pos (by decide)
      have e2 : tableLine ('|' :: x) = '|' :: x.takeWhile (fun d => !isNl d) :=
        List.takeWhile_cons_of_pos (by decide)
      rw [e1, e2, hline]
    simp only [tableM] at h ⊢
    first
      | rw [if_pos rfl] at h ⊢
      | rw [if_pos trivial] at h ⊢
    rw [hl]
    by_cases hok : (tableLine ('|' :: x)).getLast? = some '|' ∧ 3 ≤ (tableLine ('|' :: x)).length
    · rw [if_pos hok] at h
      simp at h
    · rw [if_neg hok]
  · exact tableM_none mk₂ hc x'

/-- What a table-rule match yields: the replacement is `mk` of a row capture
free of line terminators, and the rest of the text got strictly shorter. -/
theorem tableM_some_inv {mk : List Char → List Char} {l rep rest : List Char}
    (h : tableM mk l = some (rep, rest)) :
    ∃ content, rep = mk content ∧ (∀ d ∈ content, isNl d = false) ∧
      rest.length < l.length := by
  cases l with
  | nil => simp [tableM] at h
  | cons c cs =>
    simp only [tableM] at h
    split at h
    · split at h
      · rw [Option.some.injEq, Prod.mk.injEq] at h
        refine ⟨((tableLine (c :: cs)).drop 1).dropLast, h.1.symm, ?_, ?_⟩
        · intro d hd
          have hd2 : d ∈ tableLine (c :: cs) :=
            List.drop_subset 1 _ (List.dropLast_subset _ hd)
          have := List.mem_takeWhile_imp hd2
          simpa using this
        · have hc : c = '|' := by assumption
          subst hc
          have hdw : List.dropWhile (fun d => !isNl d) ('|' :: cs) =
              List.dropWhile (fun d => !isNl d) cs :=
            List.dropWhile_cons_of_pos (by decide)
          have hsub : (cs.dropWhile (fun d => !isNl d)).Sublist cs :=
            List.dropWhile_sublist _
          have hlen := hsub.length_le
          rw [← h.2, hdw]
          simp only [List.length_cons]
          omega
      · simp at h
    · simp at h

/-- On every input, the row-form table pass applied after the header-form
table pass changes nothing: a replaced line starts with `<` and a skipped
line fails the shared matching condition again. -/
theorem table_pass_inert (mk₁ mk₂ : List Char → List Char)
    (hrep : ∀ content, (∀ d ∈ content, isNl d = false) → ∀ d ∈ mk₁ content, isNl d = false)
    (hhead : ∀ content r, tableM mk₂ (mk₁ content ++ r) = none) :
    ∀ (fuel : Nat) (l : List Char) (bol : Bool), l.length ≤ fuel →
      (bol = true → tableM mk₂ (scanA (tableM mk₁) fuel bol l) = none) ∧
      ∀ t ∈ lineSuffixes (scanA (tableM mk₁) fuel bol l), tableM mk₂ t = none := by
  intro fuel
  induction fuel with
  | zero =>
    intro l bol hlen
    have hl : l = [] := by
      cases l with
      | nil => rfl
      | cons c cs => simp at hlen
    subst hl
    rw [scanA_nil]
    exact ⟨fun _ => rfl, fun t ht => by simp [lineSuffixes] at ht⟩
  | succ f ih =>
    intro l bol hlen
    cases l with
    | nil =>
      rw [scanA_nil]
      exact ⟨fun _ => rfl, fun t ht => by simp [lineSuffixes] at ht⟩
    | cons c cs =>
      have hcs : cs.length ≤ f := by
        simp [List.length_cons] at hlen
        omega
      have tail_claims : ∀ t ∈ lineSuffixes (c :: scanA (tableM mk₁) f (isNl c) cs),
          tableM mk₂ t = none := by
        intro t ht
        cases hnc : isNl c with
        | true =>
          rw [hnc] at ht
          simp only [lineSuffixes, hnc, if_true] at ht
          rcases List.mem_cons.mp ht with rfl | ht
          · exact (ih cs true hcs).1 rfl
          · exact (ih cs true hcs).2 t ht
        | false =>
          rw [hnc] at ht
          simp only [lineSuffixes, hnc, Bool.false_eq_true, if_false] at ht
          exact (ih cs false hcs).2 t ht
      cases bol with
      | false =>
        rw [scanA_cons_false, Nat.add_sub_cancel]
        exact ⟨fun h => Bool.noConfusion h, tail_claims⟩
      | true =>
        cases hm : tableM mk₁ (c :: cs) with
        | none =>
          rw [scanA_cons_true_none hm, Nat.add_sub_cancel]
          refine ⟨fun _ => ?_, tail_claims⟩
          by_cases hc : c = '|'
          · subst hc
            rw [show isNl '|' = false from rfl]
            exact tableM_none_of_line_eq hm (scanA_false_takeWhile (tableM mk₁) f cs)
          · exact tableM_none mk₂ hc _
        | some p =>
          obtain ⟨rep, rest⟩ := p
          rw [scanA_cons_true_some hm]
          obtain ⟨content, hrepEq, hfree, hlt⟩ := tableM_some_inv hm
          subst hrepEq
          have hfree' : ∀ d ∈ mk₁ content, isNl d = false := hrep content hfree
          have hrest : rest.length ≤ f := by
            simp [List.length_cons] at hlt
            omega
          refine ⟨fun _ => hhead content _, fun t ht => ?_⟩
          rw [lineSuffixes_append_no_nl hfree'] at ht
          exact (ih rest false hrest).2 t ht

/-- C2 (amended): the first pass rewrites a matching pipe-delimited line into
header form `<thead><tr><th>..</th>..</tr></thead><tbody>`, as the one-line
and two-line instances show; and on every input text the second (row-form)
pass applied after the first changes nothing, so no `<tr><td>` row form and
no closing `</tbody></table>` is ever produced. -/
theorem table_rows_become_header_form_only :
    (∀ l : List Char, linePass (tableM mkTd) (linePass (tableM mkTh) l) =
        linePass (tableM mkTh) l) ∧
    parseMarkdownToHTML "|a|b|" = "<thead><tr><th>a</th><th>b</th></tr></thead><tbody>" ∧
    parseMarkdownToHTML "|a|\n|b|" =
      "<thead><tr><th>a</th></tr></thead><tbody>\n<thead><tr><th>b</th></tr></thead><tbody>" := by
  refine ⟨fun l => ?_, by decide, by decide⟩
  have h := table_pass_inert mkTh mkTd (fun content hc => mkTh_no_nl hc)
    (fun content r => tableM_none mkTd (by decide) _) l.length l true (Nat.le_refl _)
  exact scanA_id_of h.2 _ _ (fun _ => h.1 rfl)

end JasperChat
